import Mathlib

/-!
# Verification of the python_sql_backup backup-lineage core

Shallow embedding of the backup catalog, lineage resolver, retention sweep,
chain-merge engine and archive codec of `python_sql_backup`
(`backup/backup_manager.py`, `recovery/recovery_manager.py`), together with
proofs and refutations of the specification claims about them.

Modelling conventions:
* Timestamps (`os.path.getctime` values and `datetime` instants) are `Nat`.
* The file system under the backup root is a flat list of entries
  (`FSEntry`), each carrying its parent directory path, base name,
  directory/file flag and creation time.  The list order represents the
  (unspecified, file-system dependent) order in which `os.walk` /
  `os.listdir` enumerate the entries; neither Python function guarantees
  any ordering, so any list order is a legal catalog observation.
* `tar.gz` extraction (`_uncompress_backup`) only renames the path the code
  goes on to use (dropping the `.tar.gz` suffix, exactly as the Python does
  with `backup_path[:-7]`); the extracted tree is visible to a later scan
  only if the corresponding entries are already present in the model, which
  matches the idempotent already-unpacked case the catalog relies on.
* String prefix/suffix tests are implemented structurally over `String.data`
  so that everything evaluates by `decide`.
-/

namespace PySqlBackup

/-- Python `s.startswith(p)`, computed structurally on the char list. -/
def strStartsWith (s p : String) : Bool :=
  p.data.isPrefixOf s.data

/-- Python `s.endswith(p)`, computed structurally on the char list. -/
def strEndsWith (s p : String) : Bool :=
  p.data.isSuffixOf s.data

/-- Python slicing `s[:-n]`: drop the last `n` characters. -/
def strDropRight (s : String) (n : Nat) : String :=
  ⟨s.data.take (s.data.length - n)⟩

/-- One artifact the file system holds under the backup root: its parent
directory (as path components from the root), its base name, whether it is a
directory, and its creation time (`os.path.getctime`). -/
structure FSEntry where
  dir : List String
  name : String
  isDir : Bool
  ctime : Nat
  deriving DecidableEq, Repr

/-- Full path of an entry, as components from the backup root. -/
def FSEntry.path (e : FSEntry) : List String :=
  e.dir ++ [e.name]

/-- The catalog state: every entry the walk can observe, in enumeration
order. -/
abbrev FS := List FSEntry

/-- The backup-type prefix test `name.startswith(f"{backup_type}_")`,
vacuously true when no type filter is given (`backup_type is None`). -/
def typePrefixOk : Option String → String → Bool
  | none, _ => true
  | some t, n => strStartsWith n (t ++ "_")

/-- File acceptance test of `BackupManager._find_backups`
(backup_manager.py:487-492): a file is recorded iff it ends in `.tar.gz`
and, when a type filter is given, starts with `{backup_type}_`. -/
def fileMatch (bt : Option String) (n : String) : Bool :=
  strEndsWith n ".tar.gz" && typePrefixOk bt n

/-- Directory acceptance test of `BackupManager._find_backups`
(backup_manager.py:495-502): a directory is recorded iff it passes the
optional `{backup_type}_` prefix test and starts with one of the fixed
prefixes `full_`, `incremental_`, `binlog_`. -/
def dirMatch (bt : Option String) (n : String) : Bool :=
  typePrefixOk bt n &&
    (strStartsWith n "full_" || strStartsWith n "incremental_" ||
      strStartsWith n "binlog_")

/-- Whether `_find_backups` records the entry `e` under filter `bt`. -/
def entryMatch (bt : Option String) (e : FSEntry) : Bool :=
  if e.isDir then dirMatch bt e.name else fileMatch bt e.name

/-- Embedding of `BackupManager._find_backups(backup_type)` (backup_manager.py:472-504):
walks the whole backup root and records matching `.tar.gz` files and
matching directories, in walk order.  No sorting happens here. -/
def find_backups (bt : Option String) (fs : FS) : List FSEntry :=
  fs.filter (entryMatch bt)

/-- Insert into a ctime-sorted list, keeping equal keys in their original
relative order (Python `list.sort` is stable). -/
def ctimeInsert (x : FSEntry) : List FSEntry → List FSEntry
  | [] => [x]
  | y :: ys => if x.ctime ≤ y.ctime then x :: y :: ys else y :: ctimeInsert x ys

/-- Embedding of `backups.sort(key=lambda x: os.path.getctime(x[1]))`: stable ascending
sort by creation time. -/
def pySortCtime : List FSEntry → List FSEntry
  | [] => []
  | x :: xs => ctimeInsert x (pySortCtime xs)

theorem mem_ctimeInsert {y x : FSEntry} {l : List FSEntry} :
    y ∈ ctimeInsert x l ↔ y = x ∨ y ∈ l := by
  induction l with
  | nil => simp [ctimeInsert]
  | cons z zs ih =>
      by_cases h : x.ctime ≤ z.ctime
      · simp [ctimeInsert, h]
      · simp [ctimeInsert, h, ih]
        tauto

theorem mem_pySortCtime {y : FSEntry} {l : List FSEntry} :
    y ∈ pySortCtime l ↔ y ∈ l := by
  induction l with
  | nil => simp [pySortCtime]
  | cons x xs ih => simp [pySortCtime, mem_ctimeInsert, ih]

theorem pairwise_ctimeInsert {x : FSEntry} {l : List FSEntry}
    (h : l.Pairwise (fun a b => a.ctime ≤ b.ctime)) :
    (ctimeInsert x l).Pairwise (fun a b => a.ctime ≤ b.ctime) := by
  induction l with
  | nil => simp [ctimeInsert]
  | cons z zs ih =>
      rcases List.pairwise_cons.mp h with ⟨hz, hzs⟩
      by_cases hle : x.ctime ≤ z.ctime
      · rw [show ctimeInsert x (z :: zs) = x :: z :: zs by
          simp [ctimeInsert, hle]]
        refine List.pairwise_cons.mpr ⟨?_, h⟩
        intro b hb
        rcases List.mem_cons.mp hb with rfl | hb
        · exact hle
        · exact le_trans hle (hz b hb)
      · rw [show ctimeInsert x (z :: zs) = z :: ctimeInsert x zs by
          simp [ctimeInsert, hle]]
        refine List.pairwise_cons.mpr ⟨?_, ih hzs⟩
        intro b hb
        rcases mem_ctimeInsert.mp hb with rfl | hb
        · exact le_of_not_le hle
        · exact hz b hb

theorem pairwise_pySortCtime (l : List FSEntry) :
    (pySortCtime l).Pairwise (fun a b => a.ctime ≤ b.ctime) := by
  induction l with
  | nil => simp [pySortCtime]
  | cons x xs ih => exact pairwise_ctimeInsert ih

/-- Path arithmetic of `_uncompress_backup` (backup_manager.py:311-314): when
the name ends in `.tar.gz` the extraction target is the name with that
7-character suffix removed; otherwise the path is returned unchanged. -/
def stripTarGz (n : String) : String :=
  if strEndsWith n ".tar.gz" then strDropRight n 7 else n

/-- The path a caller actually goes on to use for an entry: unchanged for a
directory-stored backup, the `.tar.gz`-stripped extraction path for a packed
one. -/
def FSEntry.resolvedPath (e : FSEntry) : List String :=
  e.dir ++ [stripTarGz e.name]

/-- Reading `os.path.getctime` at a path of the modelled file system (0 when the
path does not exist; the real call would raise, but every path the code
reads this way exists on a real run). -/
def ctimeAt (fs : FS) (p : List String) : Nat :=
  match fs.find? (fun e => decide (e.path = p)) with
  | some e => e.ctime
  | none => 0

/-- Full-backup selection of `find_backups_for_timestamp`
(backup_manager.py:521-537): sort all `full` entries ascending by ctime,
scan them newest-first, and take the first whose ctime is `≤ target`. -/
def selectFull (fs : FS) (target : Nat) : Option FSEntry :=
  ((pySortCtime (find_backups (some "full") fs)).reverse).find?
    (fun e => decide (e.ctime ≤ target))

/-- Test `os.path.exists(inc_dir) and os.path.isdir(inc_dir)` for the `inc`
subdirectory of the selected full backup (backup_manager.py:546-547). -/
def hasIncDir (fs : FS) (fullPath : List String) : Bool :=
  fs.any (fun e => decide (e.dir = fullPath) && decide (e.name = "inc") && e.isDir)

/-- Listing (`os.listdir`) of a directory: the entries whose parent is that path, in
enumeration order. -/
def childrenOf (fs : FS) (p : List String) : List FSEntry :=
  fs.filter (fun e => decide (e.dir = p))

/-- Incremental-chain scan of `find_backups_for_timestamp`
(backup_manager.py:542-557): inside `<full>/inc`, keep the items that start
with `inc_`, are directories (`os.path.isdir`, so packed `.tar.gz`
incrementals are skipped), and have ctime `≤ target`; then sort ascending by
ctime. -/
def incScan (fs : FS) (fullPath : List String) (target : Nat) : List FSEntry :=
  if hasIncDir fs fullPath then
    pySortCtime ((childrenOf fs (fullPath ++ ["inc"])).filter
      (fun e => strStartsWith e.name "inc_" && e.isDir && decide (e.ctime ≤ target)))
  else []

/-- Binlog inclusion test of `find_backups_for_timestamp`
(backup_manager.py:564-577): include a binlog entry iff
`start_time <= b <= target_time` or `full_backup_time <= b <= start_time`. -/
def binlogIncluded (startT target fullT bctime : Nat) : Bool :=
  (decide (startT ≤ bctime) && decide (bctime ≤ target)) ||
    (decide (fullT ≤ bctime) && decide (bctime ≤ startT))

/-- Binlog collection of `find_backups_for_timestamp`
(backup_manager.py:559-577): the `binlog` entries, ascending by ctime,
filtered by `binlogIncluded`. -/
def binlogScan (fs : FS) (startT target fullT : Nat) : List FSEntry :=
  (pySortCtime (find_backups (some "binlog") fs)).filter
    (fun e => binlogIncluded startT target fullT e.ctime)

/-- The triple `find_backups_for_timestamp` returns: the (possibly
uncompressed) full-backup path, the incremental paths in application order,
and the (possibly uncompressed) binlog paths. -/
structure ResolvedBackups where
  fullPath : List String
  incrementals : List (List String)
  binlogs : List (List String)
  deriving DecidableEq, Repr

/-- Embedding of `BackupManager.find_backups_for_timestamp(start_time, end_time)`
(backup_manager.py:506-579).  `target = end_time or start_time`; selects the
newest full backup with ctime `≤ target` (raising `ValueError` — the
spec's `NoSuitableFullBackup` — when none exists), scans its `inc`
subdirectory for applicable incrementals, and collects the binlog entries
passing `binlogIncluded` (with `full_backup_time` read from the resolved
full path). -/
def find_backups_for_timestamp (fs : FS) (startT : Nat) (endT : Option Nat) :
    Except String ResolvedBackups :=
  let target := endT.getD startT
  match selectFull fs target with
  | none => .error "No full backup found before the target time"
  | some f =>
      let fullPath := f.resolvedPath
      let incs := incScan fs fullPath target
      let fullT := ctimeAt fs fullPath
      let bls := binlogScan fs startT target fullT
      .ok ⟨fullPath, incs.map FSEntry.path, bls.map FSEntry.resolvedPath⟩

/-! ## Generic lemmas about the newest-first scan -/

/-- In a list sorted newest-first, the first element satisfying
`ctime ≤ t` has maximal ctime among all elements satisfying it. -/
theorem find?_max_of_desc {m : List FSEntry} {t : Nat} {f : FSEntry}
    (hs : m.Pairwise (fun a b => b.ctime ≤ a.ctime))
    (hf : m.find? (fun e => decide (e.ctime ≤ t)) = some f) :
    ∀ g ∈ m, g.ctime ≤ t → g.ctime ≤ f.ctime := by
  induction m with
  | nil => simp at hf
  | cons x xs ih =>
      rcases List.pairwise_cons.mp hs with ⟨hx, hxs⟩
      by_cases hxt : x.ctime ≤ t
      · have hfx : f = x := by
          have := hf
          rw [List.find?_cons_of_pos] at this
          · exact (Option.some_injective _ this).symm
          · simpa using hxt
        subst hfx
        intro g hg _
        rcases List.mem_cons.mp hg with rfl | hg
        · exact le_refl _
        · exact hx g hg
      · have hf' : xs.find? (fun e => decide (e.ctime ≤ t)) = some f := by
          have := hf
          rwa [List.find?_cons_of_neg] at this
          simpa using hxt
        intro g hg hgt
        rcases List.mem_cons.mp hg with rfl | hg
        · exact absurd hgt hxt
        · exact ih hxs hf' g hg hgt

theorem selectFull_some {fs : FS} {target : Nat} {f : FSEntry}
    (h : selectFull fs target = some f) :
    f ∈ find_backups (some "full") fs ∧ f.ctime ≤ target ∧
      ∀ g ∈ find_backups (some "full") fs, g.ctime ≤ target → g.ctime ≤ f.ctime := by
  unfold selectFull at h
  have hmem : f ∈ (pySortCtime (find_backups (some "full") fs)).reverse :=
    List.mem_of_find?_eq_some h
  have hp : f.ctime ≤ target := by
    have := List.find?_some h
    simpa using this
  refine ⟨?_, hp, ?_⟩
  · exact mem_pySortCtime.mp (List.mem_reverse.mp hmem)
  · intro g hg hgt
    have hsorted : ((pySortCtime (find_backups (some "full") fs)).reverse).Pairwise
        (fun a b => b.ctime ≤ a.ctime) := by
      rw [List.pairwise_reverse]
      exact pairwise_pySortCtime _
    refine find?_max_of_desc hsorted h g ?_ hgt
    exact List.mem_reverse.mpr (mem_pySortCtime.mpr hg)

theorem selectFull_none {fs : FS} {target : Nat}
    (h : selectFull fs target = none) :
    ∀ g ∈ find_backups (some "full") fs, ¬ g.ctime ≤ target := by
  intro g hg
  unfold selectFull at h
  have := List.find?_eq_none.mp h g
    (List.mem_reverse.mpr (mem_pySortCtime.mpr hg))
  simpa using this

/-- Claim C1 — For every recovery request with target end time `T`
(`T = end_time or start_time`), the resolver selects a full backup with
`createdAt ≤ T` that is maximal among all qualifying full backups, and when
no full backup has `createdAt ≤ T` it fails with the no-suitable-full-backup
`ValueError` instead of substituting anything. -/
theorem resolver_selects_maximal_full (fs : FS) (startT : Nat) (endT : Option Nat) :
    (match find_backups_for_timestamp fs startT endT with
     | .ok r => ∃ f ∈ find_backups (some "full") fs,
         r.fullPath = f.resolvedPath ∧ f.ctime ≤ endT.getD startT ∧
           ∀ g ∈ find_backups (some "full") fs,
             g.ctime ≤ endT.getD startT → g.ctime ≤ f.ctime
     | .error _ => ∀ g ∈ find_backups (some "full") fs,
         ¬ g.ctime ≤ endT.getD startT) := by
  cases hsel : selectFull fs (endT.getD startT) with
  | none =>
      simp only [find_backups_for_timestamp, hsel]
      exact selectFull_none hsel
  | some f =>
      rcases selectFull_some hsel with ⟨hmem, hle, hmax⟩
      simp only [find_backups_for_timestamp, hsel]
      exact ⟨f, hmem, rfl, hle, hmax⟩

theorem resolver_selects_maximal_full_witness :
    (match find_backups_for_timestamp
        [⟨[], "full_a", true, 5⟩, ⟨[], "full_b", true, 8⟩] 0 (some 10) with
     | .ok r => ∃ f ∈ find_backups (some "full")
           [⟨[], "full_a", true, 5⟩, ⟨[], "full_b", true, 8⟩],
         r.fullPath = f.resolvedPath ∧ f.ctime ≤ (some 10 : Option Nat).getD 0 ∧
           ∀ g ∈ find_backups (some "full")
               [⟨[], "full_a", true, 5⟩, ⟨[], "full_b", true, 8⟩],
             g.ctime ≤ (some 10 : Option Nat).getD 0 → g.ctime ≤ f.ctime
     | .error _ => ∀ g ∈ find_backups (some "full")
           [⟨[], "full_a", true, 5⟩, ⟨[], "full_b", true, 8⟩],
         ¬ g.ctime ≤ (some 10 : Option Nat).getD 0) :=
  resolver_selects_maximal_full
    [⟨[], "full_a", true, 5⟩, ⟨[], "full_b", true, 8⟩] 0 (some 10)

/-! ## C3 — completeness of the incremental chain -/

/-- Claim C3 — the code evaluated at the failing input: the chain of
`full_a` holds the packed incremental `inc_b.tar.gz` whose name passes the
`inc_` prefix test and whose ctime (20) is within the target (100), yet the
resolver returns an empty incremental list, because the scan at
backup_manager.py:551 keeps only `os.path.isdir` entries and a packed
incremental is a file. -/
theorem resolver_drops_packed_incremental :
    find_backups_for_timestamp
        [⟨[], "full_a", true, 10⟩, ⟨["full_a"], "inc", true, 10⟩,
         ⟨["full_a", "inc"], "inc_b.tar.gz", false, 20⟩] 0 (some 100) =
      .ok ⟨["full_a"], [], []⟩ ∧
      strStartsWith "inc_b.tar.gz" "inc_" = true ∧ (20 : Nat) ≤ 100 := by
  refine ⟨rfl, by decide, by decide⟩

/-! ## C4 — the binlog inclusion window -/

theorem mem_binlogScan_map {fs : FS} {s t fT : Nat} {p : List String} :
    p ∈ (binlogScan fs s t fT).map FSEntry.resolvedPath ↔
      ∃ b, b ∈ find_backups (some "binlog") fs ∧ p = b.resolvedPath ∧
        binlogIncluded s t fT b.ctime = true := by
  unfold binlogScan
  rw [List.mem_map]
  constructor
  · rintro ⟨b, hb, rfl⟩
    rw [List.mem_filter] at hb
    exact ⟨b, mem_pySortCtime.mp hb.1, rfl, hb.2⟩
  · rintro ⟨b, hb, rfl, hinc⟩
    exact ⟨b, List.mem_filter.mpr ⟨mem_pySortCtime.mpr hb, hinc⟩, rfl⟩

/-- Claim C4, counterexample — with the range `[1, 10]` over a catalog whose
only full backup was created at 5 and whose binlog entry was created at 2,
the resolver includes the binlog entry (first branch of
backup_manager.py:567) although its `createdAt` lies strictly before the
selected full backup's `createdAt`, contradicting the claimed
`F.createdAt <= B.createdAt` lower bound. -/
theorem binlog_window_counterexample :
    find_backups_for_timestamp
        [⟨[], "full_a", true, 5⟩, ⟨[], "binlog_b", true, 2⟩] 1 (some 10) =
      .ok ⟨["full_a"], [], [["binlog_b"]]⟩ ∧
      ctimeAt [⟨[], "full_a", true, 5⟩, ⟨[], "binlog_b", true, 2⟩] ["binlog_b"] <
        ctimeAt [⟨[], "full_a", true, 5⟩, ⟨[], "binlog_b", true, 2⟩] ["full_a"] := by
  refine ⟨rfl, by decide⟩

/-- Claim C4, amended — a path is in the returned binlog list iff it is the
resolved path of a catalog `binlog` entry `B` with
`start <= B.createdAt <= end` or `F.createdAt <= B.createdAt <= start`
(where `F.createdAt` is the creation time observed at the resolved full
path).  Whenever `F.createdAt <= start <= end` — in particular for every
single-instant request — this window coincides with the claimed
`F.createdAt <= B.createdAt <= end`; and the concrete scenario of the claim
holds as stated. -/
theorem binlog_window_amended (fs : FS) (startT : Nat) (endT : Option Nat) :
    (match find_backups_for_timestamp fs startT endT with
     | .ok r =>
         ∀ p : List String, p ∈ r.binlogs ↔
           ∃ b, b ∈ find_backups (some "binlog") fs ∧ p = b.resolvedPath ∧
             binlogIncluded startT (endT.getD startT) (ctimeAt fs r.fullPath)
               b.ctime = true
     | .error _ => True) ∧
    (∀ s t fT bc : Nat, fT ≤ s → s ≤ t →
      (binlogIncluded s t fT bc = true ↔ (fT ≤ bc ∧ bc ≤ t))) ∧
    find_backups_for_timestamp
        [⟨[], "full_20240101", true, 10⟩, ⟨["full_20240101"], "inc", true, 10⟩,
         ⟨["full_20240101", "inc"], "inc_20240102", true, 20⟩,
         ⟨["full_20240101", "inc"], "inc_20240103", true, 30⟩,
         ⟨[], "binlog_20240102", true, 20⟩, ⟨[], "binlog_20240104", true, 40⟩]
      25 (some 25) =
      .ok ⟨["full_20240101"], [["full_20240101", "inc", "inc_20240102"]],
        [["binlog_20240102"]]⟩ := by
  refine ⟨?_, ?_, rfl⟩
  · cases hsel : selectFull fs (endT.getD startT) with
    | none => simp [find_backups_for_timestamp, hsel]
    | some f =>
        simp only [find_backups_for_timestamp, hsel]
        intro p
        exact mem_binlogScan_map
  · intro s t fT bc hfs hst
    simp only [binlogIncluded, Bool.or_eq_true, Bool.and_eq_true, decide_eq_true_eq]
    omega

theorem binlog_window_amended_witness :
    find_backups_for_timestamp
        [⟨[], "full_20240101", true, 10⟩, ⟨["full_20240101"], "inc", true, 10⟩,
         ⟨["full_20240101", "inc"], "inc_20240102", true, 20⟩,
         ⟨["full_20240101", "inc"], "inc_20240103", true, 30⟩,
         ⟨[], "binlog_20240102", true, 20⟩, ⟨[], "binlog_20240104", true, 40⟩]
      25 (some 25) =
      .ok ⟨["full_20240101"], [["full_20240101", "inc", "inc_20240102"]],
        [["binlog_20240102"]]⟩ :=
  (binlog_window_amended [] 0 none).2.2

/-! ## C8 — enumeration order of `_find_backups` -/

/-- Whether a list of entries is in non-decreasing `createdAt` order. -/
def sortedByCtime : List FSEntry → Bool
  | [] => true
  | [_] => true
  | x :: y :: rest => decide (x.ctime ≤ y.ctime) && sortedByCtime (y :: rest)

theorem sortedByCtime_of_pairwise {l : List FSEntry}
    (h : l.Pairwise (fun a b => a.ctime ≤ b.ctime)) : sortedByCtime l = true := by
  induction l with
  | nil => rfl
  | cons x xs ih =>
      cases xs with
      | nil => rfl
      | cons y ys =>
          rcases List.pairwise_cons.mp h with ⟨hx, hrest⟩
          simp only [sortedByCtime, Bool.and_eq_true, decide_eq_true_eq]
          exact ⟨hx y (List.mem_cons_self _ _), ih hrest⟩

/-- Claim C8, counterexample — `_find_backups` itself does not sort: a catalog
whose walk enumerates a newer full backup before an older one is returned in
that walk order, which is not non-decreasing in `createdAt`. -/
theorem find_backups_unsorted_counterexample :
    sortedByCtime (find_backups (some "full")
      [⟨[], "full_b", true, 10⟩, ⟨[], "full_a", true, 5⟩]) = false := by
  decide

/-- Claim C8, amended — `_find_backups` returns the matching entries in
file-system walk order, losing none; the ascending `createdAt` order the
spec describes is established by the callers, which sort the enumeration by
`os.path.getctime` before use (`find_backups_for_timestamp`,
`clean_old_backups`, `find_latest_full_backup`): sorting the enumeration
that way always yields non-decreasing `createdAt` order and preserves the
set of entries. -/
theorem find_backups_sorted_by_callers (fs : FS) (bt : Option String) :
    sortedByCtime (pySortCtime (find_backups bt fs)) = true ∧
      ∀ e : FSEntry, e ∈ pySortCtime (find_backups bt fs) ↔ e ∈ find_backups bt fs := by
  refine ⟨sortedByCtime_of_pairwise (pairwise_pySortCtime _), ?_⟩
  intro e
  exact mem_pySortCtime

theorem find_backups_sorted_by_callers_witness :
    sortedByCtime (pySortCtime (find_backups (some "full")
        [⟨[], "full_b", true, 10⟩, ⟨[], "full_a", true, 5⟩])) = true :=
  (find_backups_sorted_by_callers
    [⟨[], "full_b", true, 10⟩, ⟨[], "full_a", true, 5⟩] (some "full")).1

/-! ## C6 — retention sweep selection -/

/-- Eviction selection of `BackupManager.clean_old_backups`
(backup_manager.py:581-619): gather the `full` and `binlog` enumerations,
sort them ascending by ctime, and select every entry whose ctime is strictly
below the cutoff `now - retention_days`.  The selection is the same for
`dry_run=True` and `dry_run=False`; only the deletion is skipped. -/
def clean_old_backups_selection (fs : FS) (cutoff : Nat) : List FSEntry :=
  (pySortCtime (find_backups (some "full") fs ++ find_backups (some "binlog") fs)).filter
    (fun e => decide (e.ctime < cutoff))

/-- A name starting with `c :: p` forces the first character of the string
to be `c`. -/
theorem startsWith_head_char {n : String} {c : Char} {p : List Char}
    (h : strStartsWith n ⟨c :: p⟩ = true) :
    ∃ cs, n.data = c :: cs := by
  unfold strStartsWith at h
  cases hd : n.data with
  | nil => rw [hd] at h; simp [List.isPrefixOf] at h
  | cons b bs =>
      rw [hd] at h
      simp only [List.isPrefixOf, Bool.and_eq_true, beq_iff_eq] at h
      exact ⟨bs, by rw [h.1]⟩

/-- Two prefixes with different first characters cannot both hold. -/
theorem startsWith_false_of_head_ne {n : String} {c d : Char} {p q : List Char}
    (h : strStartsWith n ⟨c :: p⟩ = true) (hne : c ≠ d) :
    strStartsWith n ⟨d :: q⟩ = false := by
  rcases startsWith_head_char h with ⟨cs, hcs⟩
  unfold strStartsWith
  rw [hcs]
  simp only [List.isPrefixOf, Bool.and_eq_false_iff]
  left
  simpa using fun hdc => hne hdc.symm

theorem entryMatch_full_false_of_inc {e : FSEntry}
    (h : strStartsWith e.name "inc_" = true) :
    entryMatch (some "full") e = false ∧ entryMatch (some "binlog") e = false := by
  have hfull : strStartsWith e.name "full_" = false :=
    startsWith_false_of_head_ne (c := 'i') (p := ['n', 'c', '_'])
      (d := 'f') (q := ['u', 'l', 'l', '_']) h (by decide)
  have hbin : strStartsWith e.name "binlog_" = false :=
    startsWith_false_of_head_ne (c := 'i') (p := ['n', 'c', '_'])
      (d := 'b') (q := ['i', 'n', 'l', 'o', 'g', '_']) h (by decide)
  constructor <;>
    (simp [entryMatch, dirMatch, fileMatch, typePrefixOk];
      simp [show ("full" : String) ++ "_" = "full_" from rfl,
        show ("binlog" : String) ++ "_" = "binlog_" from rfl, hfull, hbin])

theorem entryMatch_full_false_of_preRestore {e : FSEntry}
    (h : strStartsWith e.name "pre_restore_backup_" = true) :
    entryMatch (some "full") e = false ∧ entryMatch (some "binlog") e = false := by
  have hfull : strStartsWith e.name "full_" = false :=
    startsWith_false_of_head_ne (c := 'p')
      (p := "re_restore_backup_".data) (d := 'f') (q := ['u', 'l', 'l', '_']) h (by decide)
  have hbin : strStartsWith e.name "binlog_" = false :=
    startsWith_false_of_head_ne (c := 'p')
      (p := "re_restore_backup_".data) (d := 'b') (q := ['i', 'n', 'l', 'o', 'g', '_']) h (by decide)
  constructor <;>
    (simp [entryMatch, dirMatch, fileMatch, typePrefixOk];
      simp [show ("full" : String) ++ "_" = "full_" from rfl,
        show ("binlog" : String) ++ "_" = "binlog_" from rfl, hfull, hbin])

/-- Claim C6, counterexample — a pre-restore snapshot strictly older than the
cutoff is not selected for eviction: `clean_old_backups` only sweeps the
`full` and `binlog` enumerations. -/
theorem retention_skips_pre_restore_counterexample :
    (⟨[], "pre_restore_backup_x", true, 1⟩ : FSEntry) ∉
        clean_old_backups_selection [⟨[], "pre_restore_backup_x", true, 1⟩] 100 ∧
      (1 : Nat) < 100 := by
  constructor
  · decide
  · decide

/-- Claim C6, amended — an entry is selected for eviction iff it is a `full`
or `binlog` catalog entry (a directory with that name prefix, or a `.tar.gz`
file with that name prefix) whose `createdAt` is strictly older than the
cutoff.  `Incremental` entries (names starting `inc_`) are never selected on
their own age, and `PreRestoreSnapshot` entries (names starting
`pre_restore_backup_`) are never selected either, not even when older than
the cutoff. -/
theorem retention_selection_amended (fs : FS) (cutoff : Nat) :
    (∀ e : FSEntry, e ∈ clean_old_backups_selection fs cutoff ↔
        (e ∈ fs ∧
          (entryMatch (some "full") e = true ∨ entryMatch (some "binlog") e = true) ∧
          e.ctime < cutoff)) ∧
      (∀ e : FSEntry, strStartsWith e.name "inc_" = true →
        e ∉ clean_old_backups_selection fs cutoff) ∧
      (∀ e : FSEntry, strStartsWith e.name "pre_restore_backup_" = true →
        e ∉ clean_old_backups_selection fs cutoff) := by
  have hchar : ∀ e : FSEntry, e ∈ clean_old_backups_selection fs cutoff ↔
      (e ∈ fs ∧
        (entryMatch (some "full") e = true ∨ entryMatch (some "binlog") e = true) ∧
        e.ctime < cutoff) := by
    intro e
    unfold clean_old_backups_selection
    rw [List.mem_filter, mem_pySortCtime, List.mem_append]
    unfold find_backups
    rw [List.mem_filter, List.mem_filter]
    constructor
    · rintro ⟨hmem | hmem, hlt⟩ <;>
        exact ⟨hmem.1, by tauto, by simpa using hlt⟩
    · rintro ⟨hfs, hkind | hkind, hlt⟩
      · exact ⟨Or.inl ⟨hfs, hkind⟩, by simpa using hlt⟩
      · exact ⟨Or.inr ⟨hfs, hkind⟩, by simpa using hlt⟩
  refine ⟨hchar, ?_, ?_⟩
  · intro e hinc hmem
    rcases (hchar e).mp hmem with ⟨_, hkind, _⟩
    rcases entryMatch_full_false_of_inc hinc with ⟨h1, h2⟩
    rcases hkind with hk | hk <;> simp [h1, h2] at hk
  · intro e hpre hmem
    rcases (hchar e).mp hmem with ⟨_, hkind, _⟩
    rcases entryMatch_full_false_of_preRestore hpre with ⟨h1, h2⟩
    rcases hkind with hk | hk <;> simp [h1, h2] at hk

theorem retention_selection_amended_witness :
    (⟨[], "full_a", true, 1⟩ : FSEntry) ∈
      clean_old_backups_selection [⟨[], "full_a", true, 1⟩] 100 :=
  ((retention_selection_amended [⟨[], "full_a", true, 1⟩] 100).1 _).mpr
    ⟨by decide, Or.inl (by decide), by decide⟩

/-! ## C2 / C5 — the chain-merge engine

The merge engine is modelled by the sequence of external `xtrabackup
--prepare` invocations it issues and by the state it leaves behind.  Paths
are the Python path strings; the fresh working-copy path
`tmp_restore_<timestamp>` of `restore_incremental_backup`
(recovery_manager.py:535-536) is a parameter `tmpPath`. -/

/-- One `xtrabackup --prepare` invocation: its `--target-dir`, its optional
`--incremental-dir`, and whether `--apply-log-only` was passed. -/
structure PrepareCall where
  targetDir : String
  incrementalDir : Option String
  applyLogOnly : Bool
  deriving DecidableEq, Repr

/-- Embedding of `RecoveryManager._prepare_backup(backup_path, apply_log_only)`
(recovery_manager.py:43-72): uncompress the path if packed, then one
prepare call on it. -/
def prepare_backup_calls (p : String) (applyLogOnly : Bool) : List PrepareCall :=
  [⟨stripTarGz p, none, applyLogOnly⟩]

/-- Embedding of `RecoveryManager._prepare_incremental_backup(full, incrementals)`
(recovery_manager.py:74-120): uncompress the full path if packed, prepare
it with `--apply-log-only`, then apply each incremental against it in list
order, passing `--apply-log-only` exactly when `i < len(incrementals) - 1`. -/
def prepare_incremental_backup_calls (fullPath : String) (incPaths : List String) :
    List PrepareCall :=
  let fp := stripTarGz fullPath
  prepare_backup_calls fp true ++
    incPaths.enum.map (fun ip =>
      ⟨fp, some (stripTarGz ip.2), decide (ip.1 < incPaths.length - 1)⟩)

/-- Embedding of `RecoveryManager.restore_full_backup` (recovery_manager.py:465-500):
prepare the backup path itself in terminal mode (`_prepare_backup` with its
default `apply_log_only=False`); the path prepared — and later copied back —
is the caller-supplied backup directory, not a copy. -/
def restore_full_backup_prepares (backupPath : String) : List PrepareCall :=
  prepare_backup_calls backupPath false

/-- The restore dispatch of `restore_to_point_in_time`
(recovery_manager.py:592-596): a non-empty incremental list goes through
`restore_incremental_backup`, which merges into the fresh working copy
`tmpPath` (copied from the full backup); an empty list goes through
`restore_full_backup` on the full-backup path itself. -/
def chain_merge_prepares (fullPath : String) (incPaths : List String)
    (tmpPath : String) : List PrepareCall :=
  if incPaths.isEmpty then restore_full_backup_prepares fullPath
  else prepare_incremental_backup_calls tmpPath incPaths

/-- Final state of one `restore_incremental_backup` run
(recovery_manager.py:502-559).  `failAt = some k` makes the `k`-th external
step fail (step `0` is the full prepare, step `i` the application of the
`i`-th incremental, any later index the copy-back); `none` means every step
succeeds. -/
structure MergeOutcome where
  calls : List PrepareCall
  copyBackDir : Option String
  tmpRemoved : Bool
  failed : Bool
  deriving DecidableEq, Repr

/-- Embedding of `restore_incremental_backup(full, incrementals)` with failure
injection: the full backup is copied to the working copy `tmpPath`, the
prepare chain runs on the copy, the copy-back consumes it, and
`shutil.rmtree(tmp_restore_path)` runs only on the all-success path
(recovery_manager.py:551-553); the `except` clause (recovery_manager.py:557-559)
only logs and re-raises, removing nothing. -/
def restore_incremental_run (fullPath tmpPath : String) (incPaths : List String)
    (failAt : Option Nat) : MergeOutcome :=
  let _ := fullPath  -- source of the copytree only; never a prepare target
  let allCalls := prepare_incremental_backup_calls tmpPath incPaths
  match failAt with
  | some k =>
      if k ≤ incPaths.length then
        ⟨allCalls.take (k + 1), none, false, true⟩
      else
        ⟨allCalls, some tmpPath, false, true⟩
  | none => ⟨allCalls, some tmpPath, true, false⟩

theorem map_ltFlag_range' (m n : Nat) :
    (List.range' n (m + 1)).map (fun i => decide (i < n + m)) =
      List.replicate m true ++ [false] := by
  induction m generalizing n with
  | zero => simp [List.range']
  | succ m ih =>
      rw [List.range'_succ]
      simp only [List.map_cons]
      have h1 : decide (n < n + (m + 1)) = true := by simp
      have h2 : n + (m + 1) = (n + 1) + m := by omega
      rw [h1, List.replicate_succ, List.cons_append]
      congr 1
      simp only [h2]
      exact ih (n + 1)

/-- The `i < len(l) - 1` flags over an enumerated non-empty list: `true`
for every element but the last, `false` for the last. -/
theorem prepare_flags_of_ne_nil (l : List String) (h : l ≠ []) :
    l.enum.map (fun ip => decide (ip.1 < l.length - 1)) =
      List.replicate (l.length - 1) true ++ [false] := by
  obtain ⟨m, hm⟩ : ∃ m, l.length = m + 1 :=
    ⟨l.length - 1, by have := List.length_pos.mpr h; omega⟩
  have h1 : l.enum.map (fun ip => decide (ip.1 < l.length - 1)) =
      (l.enum.map Prod.fst).map (fun i => decide (i < l.length - 1)) := by
    rw [List.map_map]; rfl
  rw [h1, List.enum_map_fst, List.range_eq_range', hm]
  simpa using map_ltFlag_range' m 0

/-- Claim C2 — the `--apply-log-only` flag sequence of a chain merge over
`(F, [I1..In])`: for `n = 0` the dispatch prepares `F` once, in terminal
mode, with no log-only step; for `n ≥ 1` it prepares the working copy of
`F` log-only, then applies `I1..I(n-1)` log-only and `In` in terminal mode,
with the incremental directories passed in exactly the resolver's order. -/
theorem chain_merge_flag_sequence (fullPath tmpPath : String)
    (incPaths : List String) :
    (chain_merge_prepares fullPath incPaths tmpPath).map PrepareCall.applyLogOnly =
        (if incPaths.isEmpty then [false]
         else true :: (List.replicate (incPaths.length - 1) true ++ [false])) ∧
      (chain_merge_prepares fullPath incPaths tmpPath).map PrepareCall.incrementalDir =
        (if incPaths.isEmpty then ([none] : List (Option String))
         else none :: incPaths.map (fun p => some (stripTarGz p))) := by
  cases hl : incPaths with
  | nil =>
      simp [chain_merge_prepares, restore_full_backup_prepares, prepare_backup_calls]
  | cons x xs =>
      have hne : (x :: xs) ≠ [] := by simp
      constructor
      · simp only [chain_merge_prepares, List.isEmpty_cons, if_neg Bool.false_ne_true,
          prepare_incremental_backup_calls, prepare_backup_calls, List.singleton_append,
          List.map_cons, List.map_map]
        congr 1
        simpa [Function.comp] using prepare_flags_of_ne_nil (x :: xs) hne
      · simp only [chain_merge_prepares, List.isEmpty_cons, if_neg Bool.false_ne_true,
          prepare_incremental_backup_calls, prepare_backup_calls, List.singleton_append,
          List.map_cons, List.map_map]
        congr 1
        have : (x :: xs).enum.map (fun ip => some (stripTarGz ip.2)) =
            ((x :: xs).enum.map Prod.snd).map (fun p => some (stripTarGz p)) := by
          rw [List.map_map]; rfl
        rw [Function.comp_def, this, List.enum_map_snd]
        rfl

theorem chain_merge_flag_sequence_witness :
    (chain_merge_prepares "full_a" ["inc_1", "inc_2"] "tmp_restore_1").map
        PrepareCall.applyLogOnly =
      (if (["inc_1", "inc_2"] : List String).isEmpty then [false]
       else true :: (List.replicate ((["inc_1", "inc_2"] : List String).length - 1)
         true ++ [false])) :=
  (chain_merge_flag_sequence "full_a" "tmp_restore_1" ["inc_1", "inc_2"]).1

/-- Lemma: `stripTarGz` leaves a name without the `.tar.gz` suffix unchanged. -/
theorem stripTarGz_eq_self {p : String} (h : strEndsWith p ".tar.gz" = false) :
    stripTarGz p = p := by
  unfold stripTarGz
  rw [h]
  rfl

/-- Claim C5, counterexample — the claim fails twice on concrete merges:
the zero-incremental merge dispatches to `restore_full_backup`, whose
prepare targets the catalog's canonical full-backup directory itself (no
working copy is ever made on that path); and when the first merge step of a
one-incremental merge fails, the error propagates with the working copy
still on disk — `restore_incremental_backup`'s `except` clause removes
nothing. -/
theorem working_copy_counterexample :
    (chain_merge_prepares "full_a" [] "tmp_restore_1").map PrepareCall.targetDir =
        ["full_a"] ∧
      (restore_incremental_run "full_a" "tmp_restore_1" ["inc_b"] (some 0)).failed =
        true ∧
      (restore_incremental_run "full_a" "tmp_restore_1" ["inc_b"] (some 0)).tmpRemoved =
        false := by
  refine ⟨?_, rfl, rfl⟩
  decide

theorem prepare_calls_target (tmpPath : String) (incPaths : List String) :
    ∀ c ∈ prepare_incremental_backup_calls tmpPath incPaths,
      c.targetDir = stripTarGz (stripTarGz tmpPath) ∨ c.targetDir = stripTarGz tmpPath := by
  intro c hc
  simp only [prepare_incremental_backup_calls, prepare_backup_calls,
    List.singleton_append, List.mem_cons, List.mem_map] at hc
  rcases hc with rfl | ⟨ip, _, rfl⟩
  · exact Or.inl rfl
  · exact Or.inr rfl

/-- Claim C5, amended — a merge with at least one incremental operates only
on the working copy: every prepare call of `restore_incremental_backup`
targets `tmpPath` and the copy-back consumes `tmpPath`, never the canonical
full-backup directory.  The working copy is removed exactly when the merge
succeeds: on any failing step the error propagates with the working copy
left behind.  The zero-incremental dispatch, however, prepares (and copies
back) the canonical full-backup path itself, in place. -/
theorem working_copy_amended (fullPath tmpPath : String) (incPaths : List String)
    (failAt : Option Nat) (h : strEndsWith tmpPath ".tar.gz" = false) :
    (∀ c ∈ (restore_incremental_run fullPath tmpPath incPaths failAt).calls,
        c.targetDir = tmpPath) ∧
      ((restore_incremental_run fullPath tmpPath incPaths failAt).copyBackDir = none ∨
        (restore_incremental_run fullPath tmpPath incPaths failAt).copyBackDir =
          some tmpPath) ∧
      (restore_incremental_run fullPath tmpPath incPaths failAt).tmpRemoved =
        !(restore_incremental_run fullPath tmpPath incPaths failAt).failed ∧
      (chain_merge_prepares fullPath [] tmpPath).map PrepareCall.targetDir =
        [stripTarGz fullPath] := by
  have hstrip : stripTarGz tmpPath = tmpPath := stripTarGz_eq_self h
  have htargets : ∀ c ∈ prepare_incremental_backup_calls tmpPath incPaths,
      c.targetDir = tmpPath := by
    intro c hc
    rcases prepare_calls_target tmpPath incPaths c hc with h1 | h1 <;>
      (rw [h1, hstrip]; try rw [hstrip])
  refine ⟨?_, ?_, ?_, ?_⟩
  · intro c hc
    unfold restore_incremental_run at hc
    rcases failAt with _ | k
    · exact htargets c hc
    · by_cases hk : k ≤ incPaths.length
      · simp only [hk, if_pos] at hc
        exact htargets c (List.take_subset _ _ hc)
      · simp only [hk, if_neg, ite_false] at hc
        exact htargets c hc
  · unfold restore_incremental_run
    rcases failAt with _ | k
    · exact Or.inr rfl
    · by_cases hk : k ≤ incPaths.length <;> simp [hk]
  · unfold restore_incremental_run
    rcases failAt with _ | k
    · rfl
    · by_cases hk : k ≤ incPaths.length <;> simp [hk]
  · simp [chain_merge_prepares, restore_full_backup_prepares, prepare_backup_calls]

theorem working_copy_amended_witness :
    strEndsWith "tmp_restore_1" ".tar.gz" = false ∧
      (restore_incremental_run "full_a" "tmp_restore_1" ["inc_b"] (some 0)).tmpRemoved =
        !(restore_incremental_run "full_a" "tmp_restore_1" ["inc_b"] (some 0)).failed :=
  ⟨by decide,
    (working_copy_amended "full_a" "tmp_restore_1" ["inc_b"] (some 0) (by decide)).2.2.1⟩

/-! ## C7 — service restart after a failed copy-back -/

/-- The externally visible actions of the body of
`RecoveryManager._restore_backup` after the MySQL-status check
(recovery_manager.py:317-353): the `xtrabackup --copy-back` call, the
`chown` of the data directory, and the service-start ladder. -/
inductive RestoreAction where
  | copyBack (dir : String)
  | chownDataDir
  | serviceStart
  deriving DecidableEq, Repr

/-- Embedding of `_restore_backup(prepared_backup_path)` with a flag for whether the
copy-back invocation exits non-zero.  The `try` block runs copy-back, then
chown, then the service-start ladder; `except subprocess.CalledProcessError`
(recovery_manager.py:350-353) logs and raises `RuntimeError`, so a failing
copy-back skips everything after it, the service start included.  The
second component is `true` when the call raises. -/
def restore_backup_actions (preparedDir : String) (copyBackFails : Bool) :
    List RestoreAction × Bool :=
  if copyBackFails then
    ([RestoreAction.copyBack preparedDir], true)
  else
    ([RestoreAction.copyBack preparedDir, RestoreAction.chownDataDir,
      RestoreAction.serviceStart], false)

/-- Claim C7 — the code evaluated at the failing input: when the copy-back
step fails, `_restore_backup` propagates the failure without ever
attempting a service start; the start ladder only runs after a successful
copy-back. -/
theorem copyback_failure_no_restart (preparedDir : String) :
    (restore_backup_actions preparedDir true).2 = true ∧
      RestoreAction.serviceStart ∉ (restore_backup_actions preparedDir true).1 ∧
      RestoreAction.serviceStart ∈ (restore_backup_actions preparedDir false).1 := by
  refine ⟨rfl, ?_, ?_⟩
  · simp [restore_backup_actions]
  · simp [restore_backup_actions]

theorem copyback_failure_no_restart_witness :
    RestoreAction.serviceStart ∉ (restore_backup_actions "tmp_restore_1" true).1 :=
  (copyback_failure_no_restart "tmp_restore_1").2.1

/-! ## C9 — the archive codec round trip -/

/-- One file of a backup directory tree: its path relative to the directory
root and its contents. -/
structure TreeFile where
  rel : List String
  content : String
  deriving DecidableEq, Repr

/-- Embedding of `tar.add(backup_path, arcname=os.path.basename(backup_path))`
(backup_manager.py:147-148): the archive holds every file of the tree at
`basename/<relative path>`. -/
def tarAdd (baseName : String) (tree : List TreeFile) : List TreeFile :=
  tree.map fun f => ⟨baseName :: f.rel, f.content⟩

/-- Result state of a successful `_compress_backup(backup_path)`
(backup_manager.py:143-154): the archive file `<backup_path>.tar.gz` holding
the packed tree, with the original directory removed
(`shutil.rmtree(backup_path)`, backup_manager.py:151). -/
structure PackedState where
  archiveName : String
  archive : List TreeFile
  dirStillExists : Bool
  deriving DecidableEq, Repr

def compress_backup (baseName : String) (tree : List TreeFile) : PackedState :=
  ⟨baseName ++ ".tar.gz", tarAdd baseName tree, false⟩

/-- Embedding of `_uncompress_backup(backup_path)` (backup_manager.py:301-325):
`extract_path = backup_path[:-7]`; `tar.extractall(path=os.path.dirname(extract_path))`
recreates the archived tree next to the archive, and the directory that
ends up at `extract_path` holds, relative to itself, the archive entries
under `basename(extract_path)/`. -/
def uncompress_backup (archiveName : String) (archive : List TreeFile) :
    List TreeFile :=
  let base := stripTarGz archiveName
  (archive.filter (fun f => decide (f.rel.head? = some base))).map
    fun f => ⟨f.rel.tail, f.content⟩

theorem data_append (a b : String) : (a ++ b).data = a.data ++ b.data := rfl

/-- Lemma `"<b>.tar.gz"[:-7] = b`: stripping the suffix that `_compress_backup`
appended recovers the original directory name. -/
theorem stripTarGz_append_suffix (b : String) :
    stripTarGz (b ++ ".tar.gz") = b := by
  have hend : strEndsWith (b ++ ".tar.gz") ".tar.gz" = true := by
    unfold strEndsWith
    rw [data_append]
    exact List.isSuffixOf_iff_suffix.mpr ⟨b.data, rfl⟩
  unfold stripTarGz
  rw [hend]
  unfold strDropRight
  rw [data_append]
  have hlen : (b.data ++ (".tar.gz" : String).data).length - 7 = b.data.length := by
    simp [List.length_append]
  rw [hlen]
  have htake : (b.data ++ (".tar.gz" : String).data).take b.data.length = b.data :=
    List.take_left b.data _
  rw [htake]
  rw [if_pos rfl]

/-- Claim C9 — Pack-then-Unpack round trip: packing a directory and unpacking
the resulting archive reproduces exactly the original relative paths and
contents, and a successful Pack leaves the `.tar.gz` archive with the
original directory removed. -/
theorem pack_unpack_roundtrip (baseName : String) (tree : List TreeFile) :
    uncompress_backup (compress_backup baseName tree).archiveName
        (compress_backup baseName tree).archive = tree ∧
      (compress_backup baseName tree).dirStillExists = false ∧
      (compress_backup baseName tree).archiveName = baseName ++ ".tar.gz" := by
  refine ⟨?_, rfl, rfl⟩
  show uncompress_backup (baseName ++ ".tar.gz") (tarAdd baseName tree) = tree
  unfold uncompress_backup tarAdd
  rw [stripTarGz_append_suffix]
  induction tree with
  | nil => rfl
  | cons f fs ih =>
      simp only [List.map_cons, List.filter_cons, List.head?_cons, decide_eq_true_eq]
      rw [if_pos trivial]
      simp only [List.map_cons, List.tail_cons]
      exact congrArg (List.cons f) ih

theorem pack_unpack_roundtrip_witness :
    uncompress_backup (compress_backup "full_a" [⟨["f1"], "x"⟩]).archiveName
        (compress_backup "full_a" [⟨["f1"], "x"⟩]).archive = [⟨["f1"], "x"⟩] :=
  (pack_unpack_roundtrip "full_a" [⟨["f1"], "x"⟩]).1

/-! ## C10 — the standalone binlog-application guard -/

/-- The observable behaviour of `RecoveryManager.apply_binlog`
(recovery_manager.py:607-637): when both bounds are given and
`end_time <= start_time`, it raises `ValueError` before `_apply_binlog`
runs (so before any binlog directory is read); otherwise `_apply_binlog`
reads every supplied binlog directory.  First component: the binlog
directories read; second: the result. -/
def apply_binlog_run (binlogPaths : List String) (startT endT : Option Nat) :
    List String × Except String Unit :=
  match startT, endT with
  | some s, some e =>
      if e ≤ s then ([], .error "End time must be later than start time")
      else (binlogPaths, .ok ())
  | _, _ => (binlogPaths, .ok ())

/-- Claim C10 — with both bounds supplied, `apply_binlog` raises `ValueError`
exactly when `end_time <= start_time` (the equal case included), and in
that case no binlog directory is read; yet a single-instant request
(`start == end`) is accepted by the point-in-time resolver, as the concrete
instance shows. -/
theorem apply_binlog_rejects_degenerate_range (ps : List String) (s e : Nat) :
    ((apply_binlog_run ps (some s) (some e)).2 =
        Except.error "End time must be later than start time" ↔ e ≤ s) ∧
      (apply_binlog_run ps (some s) (some s)).1 = [] ∧
      (∀ p ∈ (apply_binlog_run ps (some s) (some e)).1, s < e) ∧
      find_backups_for_timestamp [⟨[], "full_a", true, 0⟩] 5 (some 5) =
        .ok ⟨["full_a"], [], []⟩ := by
  refine ⟨?_, ?_, ?_, rfl⟩
  · by_cases h : e ≤ s <;> simp [apply_binlog_run, h]
  · simp [apply_binlog_run]
  · intro p hp
    by_cases h : e ≤ s
    · simp [apply_binlog_run, h] at hp
    · omega

theorem apply_binlog_rejects_degenerate_range_witness :
    (apply_binlog_run ["binlog_1"] (some 7) (some 7)).2 =
      Except.error "End time must be later than start time" :=
  ((apply_binlog_rejects_degenerate_range ["binlog_1"] 7 7).1).mpr (le_refl 7)

end PySqlBackup
